import Mathlib

/-!
Shallow embedding of the saturation-prover core under verification:
terms, literals, substitution matching, forward demodulation
(Inferences/ForwardDemodulation.cpp), inner rewriting
(Inferences/InnerRewriting.cpp), forward subsumption
(Inferences/SLQueryForwardSubsumption.cpp), code-tree forward subsumption
and subsumption resolution (Inferences/CTFwSubsAndRes.cpp), the
multi-strategy scheduler admission step (Kernel/MainLoopScheduler.hpp),
interpreted integer arithmetic (Kernel/Theory.cpp) and the standalone
exit-code computation (vampire.cpp).
-/

/-! ## Terms and literals

A term is a variable (tagged integer) or an application of a functor index
to a list of argument terms, mirroring the shared term nodes of the
Kernel term store. -/

inductive FTerm where
  | var (i : Nat)
  | app (f : Nat) (args : List FTerm)

mutual

def FTerm.beq : FTerm → FTerm → Bool
  | .var i, .var j => i == j
  | .app f as, .app g bs => f == g && FTerm.beqArgs as bs
  | _, _ => false

def FTerm.beqArgs : List FTerm → List FTerm → Bool
  | [], [] => true
  | a :: as, b :: bs => FTerm.beq a b && FTerm.beqArgs as bs
  | _, _ => false

end

mutual

theorem FTerm.beq_iff : ∀ a b : FTerm, FTerm.beq a b = true ↔ a = b
  | .var i, .var j => by simp [FTerm.beq]
  | .var i, .app g bs => by simp [FTerm.beq]
  | .app f as, .var j => by simp [FTerm.beq]
  | .app f as, .app g bs => by
      simp [FTerm.beq, FTerm.beqArgs_iff as bs]

theorem FTerm.beqArgs_iff : ∀ as bs : List FTerm, FTerm.beqArgs as bs = true ↔ as = bs
  | [], [] => by simp [FTerm.beqArgs]
  | [], b :: bs => by simp [FTerm.beqArgs]
  | a :: as, [] => by simp [FTerm.beqArgs]
  | a :: as, b :: bs => by
      simp [FTerm.beqArgs, FTerm.beq_iff a b, FTerm.beqArgs_iff as bs]

end

instance : DecidableEq FTerm := fun a b =>
  decidable_of_iff (FTerm.beq a b = true) (FTerm.beq_iff a b)

instance : Inhabited FTerm := ⟨.var 0⟩

/-- A literal: a polarity bit plus a predicate functor applied to argument
terms.  Predicate index 0 is the distinguished equality predicate. -/
structure Lit where
  pol : Bool
  pred : Nat
  args : List FTerm
deriving DecidableEq

instance : Inhabited Lit := ⟨⟨true, 0, []⟩⟩

/-- The distinguished equality predicate test (Literal::isEquality). -/
def Lit.isEquality (l : Lit) : Bool := l.pred == 0

/-- First argument of a (binary equality) literal. -/
def Lit.arg0 (l : Lit) : FTerm := l.args.getD 0 default

/-- Second argument of a (binary equality) literal. -/
def Lit.arg1 (l : Lit) : FTerm := l.args.getD 1 default

/-! ## Substitutions and matching

Matching a pattern term against a subject term, accumulating variable
bindings; this realises the match_against operation of the term store
interface used by the generalization index queries. -/

abbrev Subst := List (Nat × FTerm)

mutual

def applyTerm (s : Subst) : FTerm → FTerm
  | .var i => (s.lookup i).getD (.var i)
  | .app f args => .app f (applyArgs s args)

def applyArgs (s : Subst) : List FTerm → List FTerm
  | [] => []
  | t :: ts => applyTerm s t :: applyArgs s ts

end

/-- Application of a substitution to a literal. -/
def applyLit (s : Subst) (l : Lit) : Lit :=
  { l with args := applyArgs s l.args }

mutual

def matchTerm (s : Subst) : FTerm → FTerm → Option Subst
  | .var i, u =>
    match s.lookup i with
    | some t => if t = u then some s else none
    | none => some ((i, u) :: s)
  | .app _ _, .var _ => none
  | .app f args, .app g bs => if f = g then matchArgs s args bs else none

def matchArgs (s : Subst) : List FTerm → List FTerm → Option Subst
  | [], [] => some s
  | [], _ :: _ => none
  | _ :: _, [] => none
  | t :: ts, u :: us =>
    match matchTerm s t u with
    | some s2 => matchArgs s2 ts us
    | none => none

end

/-- Matching of a pattern literal against a subject literal: polarities and
predicates must agree, then the argument lists are matched pairwise. -/
def matchLit (s : Subst) (p q : Lit) : Option Subst :=
  if p.pol = q.pol ∧ p.pred = q.pred then matchArgs s p.args q.args else none

/-- One substitution extends another when it preserves every binding. -/
def substExtends (s s2 : Subst) : Prop :=
  ∀ x t, s.lookup x = some t → s2.lookup x = some t

theorem substExtends_refl (s : Subst) : substExtends s s := fun _ _ h => h

theorem substExtends_trans {a b c : Subst} (h1 : substExtends a b)
    (h2 : substExtends b c) : substExtends a c :=
  fun x t h => h2 x t (h1 x t h)

mutual

theorem matchTerm_extends : ∀ (s : Subst) (p u : FTerm) (s2 : Subst),
    matchTerm s p u = some s2 → substExtends s s2
  | s, .var i, u, s2 => by
    simp only [matchTerm]
    cases hl : s.lookup i with
    | some t =>
      simp only []
      split
      · intro h; cases h; exact substExtends_refl _
      · intro h; cases h
    | none =>
      intro h
      cases h
      intro x t hx
      by_cases hxi : x = i
      · subst hxi; rw [hl] at hx; cases hx
      · have hne : (x == i) = false := by simp [hxi]
        simp [List.lookup, hne, hx]
  | s, .app f args, .var j, s2 => by
    simp [matchTerm]
  | s, .app f args, .app g bs, s2 => by
    simp only [matchTerm]
    split
    · exact matchArgs_extends s args bs s2
    · intro h; cases h

theorem matchArgs_extends : ∀ (s : Subst) (ps us : List FTerm) (s2 : Subst),
    matchArgs s ps us = some s2 → substExtends s s2
  | s, [], [], s2 => by
    simp only [matchArgs]
    intro h; cases h; exact substExtends_refl _
  | s, [], u :: us, s2 => by simp [matchArgs]
  | s, p :: ps, [], s2 => by simp [matchArgs]
  | s, p :: ps, u :: us, s2 => by
    simp only [matchArgs]
    cases hm : matchTerm s p u with
    | some s1 =>
      intro h
      exact substExtends_trans (matchTerm_extends s p u s1 hm)
        (matchArgs_extends s1 ps us s2 h)
    | none => intro h; cases h

end

mutual

theorem matchTerm_sound : ∀ (s : Subst) (p u : FTerm) (s2 : Subst),
    matchTerm s p u = some s2 → ∀ sf : Subst, substExtends s2 sf →
    applyTerm sf p = u
  | s, .var i, u, s2 => by
    simp only [matchTerm]
    cases hl : s.lookup i with
    | some t =>
      simp only []
      split
      · rename_i heq
        intro h; cases h
        intro sf hext
        have : sf.lookup i = some t := hext i t hl
        simp [applyTerm, this, heq]
      · intro h; cases h
    | none =>
      intro h; cases h
      intro sf hext
      have : sf.lookup i = some u := by
        apply hext
        simp [List.lookup]
      simp [applyTerm, this]
  | s, .app f args, .var j, s2 => by simp [matchTerm]
  | s, .app f args, .app g bs, s2 => by
    simp only [matchTerm]
    split
    · rename_i hfg
      intro h sf hext
      have := matchArgs_sound s args bs s2 h sf hext
      simp [applyTerm, hfg, this]
    · intro h; cases h

theorem matchArgs_sound : ∀ (s : Subst) (ps us : List FTerm) (s2 : Subst),
    matchArgs s ps us = some s2 → ∀ sf : Subst, substExtends s2 sf →
    applyArgs sf ps = us
  | s, [], [], s2 => by
    intro h sf hext
    simp [applyArgs]
  | s, [], u :: us, s2 => by simp [matchArgs]
  | s, p :: ps, [], s2 => by simp [matchArgs]
  | s, p :: ps, u :: us, s2 => by
    simp only [matchArgs]
    cases hm : matchTerm s p u with
    | some s1 =>
      intro h sf hext
      have hrest := matchArgs_sound s1 ps us s2 h sf hext
      have hext1 : substExtends s1 sf :=
        substExtends_trans (matchArgs_extends s1 ps us s2 h) hext
      have hhead := matchTerm_sound s p u s1 hm sf hext1
      simp [applyArgs, hhead, hrest]
    | none => intro h; cases h

end

theorem matchLit_extends {s : Subst} {p q : Lit} {s2 : Subst}
    (h : matchLit s p q = some s2) : substExtends s s2 := by
  unfold matchLit at h
  split at h
  · exact matchArgs_extends s p.args q.args s2 h
  · cases h

theorem matchLit_sound {s : Subst} {p q : Lit} {s2 : Subst}
    (h : matchLit s p q = some s2) : ∀ sf : Subst, substExtends s2 sf →
    applyLit sf p = q := by
  unfold matchLit at h
  split at h
  · rename_i hpq
    intro sf hext
    have := matchArgs_sound s p.args q.args s2 h sf hext
    cases p; cases q
    simp_all [applyLit]
  · cases h

/-! ## Ordering results and cached argument order

Ordering::Result values of the simplification ordering, and the cached
per-equality-literal argument order tag Term::ArgumentOrder. -/

inductive OrdResult where
  | GREATER
  | LESS
  | GREATER_EQ
  | LESS_EQ
  | EQUAL
  | INCOMPARABLE
deriving DecidableEq

inductive ArgumentOrder where
  | UNKNOWN
  | GREATER
  | LESS
  | EQUAL
  | INCOMPARABLE
deriving DecidableEq

/-! ## Equality helpers

EqHelper lives in Kernel/EqHelper.hpp, which is not among the provided
source files; the three helpers below are therefore modelled from the
specification wording. -/

mutual

/-- Modelled from the spec: EqHelper::replace (Kernel/EqHelper.hpp is not
under src); it rewrites every occurrence of the subterm lhs inside a term
to rhs, as demodulation and inner rewriting require. -/
def replaceTerm (lhs rhs : FTerm) (t : FTerm) : FTerm :=
  if t = lhs then rhs
  else
    match t with
    | .var i => .var i
    | .app f args => .app f (replaceArgs lhs rhs args)

/-- Modelled from the spec: argument-list companion of replaceTerm. -/
def replaceArgs (lhs rhs : FTerm) : List FTerm → List FTerm
  | [] => []
  | t :: ts => replaceTerm lhs rhs t :: replaceArgs lhs rhs ts

end

/-- Modelled from the spec: EqHelper::replace on a literal (Kernel/EqHelper.hpp
is not under src); every occurrence of lhs in the argument terms is
rewritten to rhs. -/
def replaceLit (lhs rhs : FTerm) (l : Lit) : Lit :=
  { l with args := replaceArgs lhs rhs l.args }

/-- Modelled from the spec: EqHelper::isEqTautology (Kernel/EqHelper.hpp is
not under src); a literal is an equational tautology when it is a positive
equality between two identical terms. -/
def isEqTautology (l : Lit) : Bool :=
  l.pol && l.isEquality &&
    (match l.args with
     | [s, t] => s == t
     | _ => false)

/-- Modelled from the spec: EqHelper::getOtherEqualitySide (Kernel/EqHelper.hpp
is not under src); given an equality literal and one of its two top-level
sides, it returns the other side. -/
def getOtherEqualitySide (l : Lit) (t : FTerm) : FTerm :=
  if t = l.arg0 then l.arg1 else l.arg0

/-- Modelled from the spec: EqHelper::hasGreaterEqualitySide
(Kernel/EqHelper.hpp is not under src).  For a binary equality literal it
selects the orientation whose first component is greater than or equal to
the second under the ordering, if the ordering establishes one; the greater
side is the returned lhs, the smaller side the returned rhs. -/
def hasGreaterEqualitySide (ord : FTerm → FTerm → OrdResult) (l : Lit) :
    Option (FTerm × FTerm) :=
  match l.args with
  | [s, t] =>
    match ord s t with
    | .GREATER => some (s, t)
    | .GREATER_EQ => some (s, t)
    | .LESS => some (t, s)
    | .LESS_EQ => some (t, s)
    | _ => none
  | _ => none

/-! ## Clauses

An ordered buffer of literals with age and input type, as needed by the
conclusion builders of the simplifying inferences. -/

structure ClauseA where
  lits : List Lit
  age : Nat
  inputType : Nat
deriving DecidableEq

/-- CTFwSubsAndRes::buildSResClause (Inferences/CTFwSubsAndRes.cpp lines
46-72): the subsumption-resolution replacement clause keeps every literal
of the given clause except the one at resolvedIndex, takes the maximum of
the two input types, and receives the age of the given clause via
res->setAge(cl->age()) at line 69. -/
def buildSResClause (cl : ClauseA) (resolvedIndex : Nat) (premise : ClauseA) :
    ClauseA :=
  { lits := (cl.lits.enum.filter (fun kl => kl.1 ≠ resolvedIndex)).map (fun kl => kl.2),
    age := cl.age,
    inputType := max cl.inputType premise.inputType }

/-- ForwardDemodulation::perform conclusion builder
(Inferences/ForwardDemodulation.cpp lines 177-194): the rewritten literal
goes first, every literal of the given clause other than the rewritten one
is copied, the input type is the maximum of the two parents, and the age is
set to the age of the given clause via res->setAge(cl->age()) at line 194. -/
def fdBuildResult (cl : ClauseA) (lit : Lit) (resLit : Lit) (premise : ClauseA) :
    ClauseA :=
  { lits := resLit :: cl.lits.filter (fun curr => curr ≠ lit),
    age := cl.age,
    inputType := max cl.inputType premise.inputType }

/-! ## Standalone exit codes (vampire.cpp)

vampireReturnValue is initialised to 1 (vampire.cpp line 97); vampireMode
(lines 202-224) runs the proving pipeline and sets the return value to 0
only when the termination reason is REFUTATION (lines 221-223). -/

inductive TerminationReason where
  | REFUTATION
  | SATISFIABLE
  | TIME_LIMIT
  | MEMORY_LIMIT
  | UNKNOWN
  | REFUTATION_NOT_FOUND
deriving DecidableEq

/-- Exit code of a standalone run in the proving mode, as computed by
vampireMode in vampire.cpp: the initial value 1 of vampireReturnValue is
replaced by 0 exactly when the recorded termination reason is REFUTATION. -/
def vampireModeReturnValue (r : TerminationReason) : Nat :=
  if r = .REFUTATION then 0 else 1

/-! ## Multi-strategy scheduler admission (Kernel/MainLoopScheduler.hpp)

The scheduler holds an options queue ordered by CompareOptions (lines
104-112), which compares two strategies by
getMultiProofAttemptPriority with the order reversed so that priority
value 0 is the top; addContext (lines 130-140) fills an empty context
slot from the top of the queue and pops it. -/

structure SchedOptions where
  multiProofAttemptPriority : Nat
  strategyId : Nat
deriving DecidableEq

/-- MainLoopScheduler::CompareOptions (lines 104-112): lhs orders before
rhs in the queue when its priority value is larger, so the queue top is a
strategy with the minimal priority value. -/
def compareOptions (lhs rhs : SchedOptions) : Bool :=
  rhs.multiProofAttemptPriority < lhs.multiProofAttemptPriority

/-- Top of the options priority queue: a maximal element with respect to
compareOptions, which is an element with minimal priority value. -/
def queueTop : List SchedOptions → Option SchedOptions
  | [] => none
  | x :: xs =>
    match queueTop xs with
    | none => some x
    | some y => if compareOptions x y then some y else some x

/-- MainLoopScheduler::addContext (lines 130-140): when the queue is
nonempty, the strategy at the queue top is used to create the new context
and is popped from the queue. -/
def addContext (q : List SchedOptions) : Option (SchedOptions × List SchedOptions) :=
  match queueTop q with
  | none => none
  | some t => some (t, q.erase t)

/-! ## Interpreted integer arithmetic (Kernel/Theory.cpp)

IntegerConstantType wraps a machine integer (InnerType = int, 32 bits).
The arithmetic operators (Theory.cpp lines 50-117) delegate overflow
detection to Int::safePlus, Int::safeMinus, Int::safeUnaryMinus and
Int::safeMultiply from Lib/Int.hpp, which is not among the provided source
files, so those helpers are modelled from the specification; division and
modulo guard their error cases inline in Theory.cpp. -/

def intMin : Int := -2147483648

def intMax : Int := 2147483647

/-- A value is representable in the underlying machine integer type when
it lies between intMin and intMax. -/
def intRepresentable (x : Int) : Prop := intMin ≤ x ∧ x ≤ intMax

instance (x : Int) : Decidable (intRepresentable x) := by
  unfold intRepresentable; infer_instance

/-- Outcome of an interpreted-constant operation: a value, or the
recoverable ArithmeticException (Kernel/Theory.hpp line 29). -/
inductive ArithRes where
  | ok (v : Int)
  | arithmeticException
deriving DecidableEq

/-- Modelled from the spec: Int::safePlus (Lib/Int.hpp is not under src)
returns the exact sum exactly when it is representable. -/
def safePlus (a b : Int) : Option Int :=
  if intRepresentable (a + b) then some (a + b) else none

/-- Modelled from the spec: Int::safeMinus (Lib/Int.hpp is not under src)
returns the exact difference exactly when it is representable. -/
def safeMinus (a b : Int) : Option Int :=
  if intRepresentable (a - b) then some (a - b) else none

/-- Modelled from the spec: Int::safeUnaryMinus (Lib/Int.hpp is not under
src) returns the exact negation exactly when it is representable. -/
def safeUnaryMinus (a : Int) : Option Int :=
  if intRepresentable (-a) then some (-a) else none

/-- Modelled from the spec: Int::safeMultiply (Lib/Int.hpp is not under
src) returns the exact product exactly when it is representable. -/
def safeMultiply (a b : Int) : Option Int :=
  if intRepresentable (a * b) then some (a * b) else none

/-- IntegerConstantType addition (Theory.cpp lines 50-59): the safe sum,
or ArithmeticException. -/
def ictPlus (a b : Int) : ArithRes :=
  match safePlus a b with
  | some r => .ok r
  | none => .arithmeticException

/-- IntegerConstantType subtraction (Theory.cpp lines 61-70): the safe
difference, or ArithmeticException. -/
def ictMinus (a b : Int) : ArithRes :=
  match safeMinus a b with
  | some r => .ok r
  | none => .arithmeticException

/-- IntegerConstantType unary minus (Theory.cpp lines 72-81): the safe
negation, or ArithmeticException. -/
def ictUnaryMinus (a : Int) : ArithRes :=
  match safeUnaryMinus a with
  | some r => .ok r
  | none => .arithmeticException

/-- IntegerConstantType multiplication (Theory.cpp lines 83-92): the safe
product, or ArithmeticException. -/
def ictMultiply (a b : Int) : ArithRes :=
  match safeMultiply a b with
  | some r => .ok r
  | none => .arithmeticException

/-- IntegerConstantType division (Theory.cpp lines 94-106): a zero divisor
raises, dividing the minimal machine integer by -1 raises, and otherwise
the truncated quotient of the two values is returned. -/
def ictDiv (a b : Int) : ArithRes :=
  if b = 0 then .arithmeticException
  else if a = intMin ∧ b = -1 then .arithmeticException
  else .ok (Int.tdiv a b)

/-- IntegerConstantType modulo (Theory.cpp lines 108-117): only a zero
divisor is guarded, and the machine remainder of the two values is then
taken directly.  The guard against dividing the minimal machine integer
by -1 that operator/ has at line 102 is missing here, and on that input
the machine division underlying the remainder overflows: undefined
behavior, a hardware trap on mainstream platforms, rather than a result
or an ArithmeticException.  The embedding renders that error path as
none. -/
def ictMod (a b : Int) : Option ArithRes :=
  if b = 0 then some .arithmeticException
  else if a = intMin ∧ b = -1 then none
  else some (.ok (Int.tmod a b))

/-! ## Scheduler queue lemmas -/

theorem queueTop_eq_none : ∀ q : List SchedOptions, queueTop q = none ↔ q = []
  | [] => by simp [queueTop]
  | x :: xs => by
    simp only [queueTop]
    cases queueTop xs with
    | none => simp
    | some y =>
      simp only []
      split <;> simp

theorem queueTop_mem : ∀ (q : List SchedOptions) (t : SchedOptions),
    queueTop q = some t → t ∈ q
  | [], t => by simp [queueTop]
  | x :: xs, t => by
    simp only [queueTop]
    cases hq : queueTop xs with
    | none => intro h; injection h with h2; subst h2; simp
    | some y =>
      simp only []
      split
      · intro h; injection h with h2; subst h2
        exact List.mem_cons_of_mem x (queueTop_mem xs y hq)
      · intro h; injection h with h2; subst h2; simp

theorem queueTop_min : ∀ (q : List SchedOptions) (t : SchedOptions),
    queueTop q = some t → ∀ z ∈ q,
    t.multiProofAttemptPriority ≤ z.multiProofAttemptPriority
  | [], t => by simp [queueTop]
  | x :: xs, t => by
    simp only [queueTop]
    cases hq : queueTop xs with
    | none =>
      have hxs : xs = [] := (queueTop_eq_none xs).1 hq
      subst hxs
      intro h z hz
      injection h with h2; subst h2
      have : z = x := by simpa using hz
      subst this
      exact le_refl _
    | some y =>
      simp only []
      split
      · rename_i hcmp
        intro h z hz
        injection h with h2; subst h2
        unfold compareOptions at hcmp
        rcases List.mem_cons.1 hz with rfl | hz2
        · exact le_of_lt (by simpa using hcmp)
        · exact queueTop_min xs y hq z hz2
      · rename_i hcmp
        intro h z hz
        injection h with h2; subst h2
        unfold compareOptions at hcmp
        have hty : x.multiProofAttemptPriority ≤ y.multiProofAttemptPriority := by
          simpa using hcmp
        rcases List.mem_cons.1 hz with rfl | hz2
        · exact le_refl _
        · exact le_trans hty (queueTop_min xs y hq z hz2)

/-! ## Claim theorems: ages, exit codes, scheduler, arithmetic -/

/-- Claim C1 counterexample: at a concrete given clause and premise, both of
age 0, the subsumption-resolution replacement clause built by
CTFwSubsAndRes::buildSResClause has age 0, which is smaller than 1 plus the
maximum age of its two inference parents; the claimed age invariant fails. -/
theorem age_invariant_counterexample :
    ¬ (1 + max (ClauseA.mk [⟨true, 1, []⟩, ⟨false, 2, []⟩] 0 0).age
          (ClauseA.mk [⟨true, 1, []⟩] 0 0).age
        ≤ (buildSResClause (ClauseA.mk [⟨true, 1, []⟩, ⟨false, 2, []⟩] 0 0) 1
            (ClauseA.mk [⟨true, 1, []⟩] 0 0)).age) := by decide

/-- Claim C1, amended: the conclusion clause built by forward demodulation
and the replacement clause built by forward subsumption resolution both
receive exactly the age of the given clause (res->setAge(cl->age()) in
ForwardDemodulation.cpp line 194 and CTFwSubsAndRes.cpp line 69), which in
general is smaller than 1 plus the maximum age of the inference parents. -/
theorem simplification_child_age_eq_given_age
    (cl premise : ClauseA) (i : Nat) (lit resLit : Lit) :
    (buildSResClause cl i premise).age = cl.age ∧
    (fdBuildResult cl lit resLit premise).age = cl.age :=
  ⟨rfl, rfl⟩

/-- Claim C2: evaluation of the proving-mode exit-code computation at the
failing input.  When the termination reason is SATISFIABLE, vampireMode
leaves vampireReturnValue at 1 (only REFUTATION sets it to 0 at
vampire.cpp lines 221-223), although the documented contract (lines 82-87)
and the specification promise exit code 0 for established satisfiability;
time-out, unknown and no result correctly yield 1 and refutation yields 0. -/
theorem vampireMode_exit_code_at_satisfiable :
    vampireModeReturnValue .SATISFIABLE = 1 ∧
    vampireModeReturnValue .REFUTATION = 0 ∧
    vampireModeReturnValue .TIME_LIMIT = 1 ∧
    vampireModeReturnValue .UNKNOWN = 1 ∧
    vampireModeReturnValue .REFUTATION_NOT_FOUND = 1 := by
  refine ⟨rfl, rfl, rfl, rfl, rfl⟩

/-- Claim C8: whenever MainLoopScheduler::addContext fills an empty context
slot from a nonempty options queue, the chosen options object has the
minimal multi-proof-attempt priority value among all queued strategies
(CompareOptions reverses the order so that value 0 is the top), and that
strategy is removed from the queue while all others remain. -/
theorem addContext_picks_min_priority
    (q : List SchedOptions) (t : SchedOptions) (q2 : List SchedOptions)
    (h : addContext q = some (t, q2)) :
    t ∈ q ∧
    (∀ z ∈ q, t.multiProofAttemptPriority ≤ z.multiProofAttemptPriority) ∧
    q.Perm (t :: q2) := by
  unfold addContext at h
  cases hq : queueTop q with
  | none => rw [hq] at h; cases h
  | some u =>
    rw [hq] at h
    injection h with h2
    injection h2 with h3 h4
    subst h3; subst h4
    have hmem := queueTop_mem q u hq
    exact ⟨hmem, queueTop_min q u hq, List.perm_cons_erase hmem⟩

/-- Witness for claim C8: on the concrete queue with priority values 2, 1, 3
the strategy with priority value 1 is admitted and removed. -/
theorem addContext_picks_min_priority_witness :
    (SchedOptions.mk 1 11) ∈ [SchedOptions.mk 2 10, SchedOptions.mk 1 11, SchedOptions.mk 3 12] ∧
    (∀ z ∈ [SchedOptions.mk 2 10, SchedOptions.mk 1 11, SchedOptions.mk 3 12],
      (SchedOptions.mk 1 11).multiProofAttemptPriority ≤ z.multiProofAttemptPriority) ∧
    List.Perm [SchedOptions.mk 2 10, SchedOptions.mk 1 11, SchedOptions.mk 3 12]
      (SchedOptions.mk 1 11 :: [SchedOptions.mk 2 10, SchedOptions.mk 3 12]) :=
  addContext_picks_min_priority _ _ _ (by decide)

/-- Characterization of the interpreted integer-constant operations:
addition, subtraction, unary minus and multiplication return the exact
value exactly when it is representable and raise the recoverable
ArithmeticException otherwise; division guards the zero divisor and the
minimal-integer-by--1 overflow; modulo guards only the zero divisor, so
the minimal-integer-by--1 input reaches the unguarded machine division
(rendered none), and every returned value is the exact truncated
quotient or remainder (Int.tdiv, Int.tmod), never wrapped.  The safe
helpers of Lib/Int.hpp are modelled from the specification. -/
theorem ict_operations_exact_or_exception (a b : Int) :
    (ictPlus a b = .ok (a + b) ↔ intRepresentable (a + b)) ∧
    (ictPlus a b = .arithmeticException ↔ ¬ intRepresentable (a + b)) ∧
    (∀ r, ictPlus a b = .ok r → r = a + b) ∧
    (ictMinus a b = .ok (a - b) ↔ intRepresentable (a - b)) ∧
    (ictMinus a b = .arithmeticException ↔ ¬ intRepresentable (a - b)) ∧
    (∀ r, ictMinus a b = .ok r → r = a - b) ∧
    (ictUnaryMinus a = .ok (-a) ↔ intRepresentable (-a)) ∧
    (ictUnaryMinus a = .arithmeticException ↔ ¬ intRepresentable (-a)) ∧
    (∀ r, ictUnaryMinus a = .ok r → r = -a) ∧
    (ictMultiply a b = .ok (a * b) ↔ intRepresentable (a * b)) ∧
    (ictMultiply a b = .arithmeticException ↔ ¬ intRepresentable (a * b)) ∧
    (∀ r, ictMultiply a b = .ok r → r = a * b) ∧
    (ictDiv a b = .arithmeticException ↔ (b = 0 ∨ (a = intMin ∧ b = -1))) ∧
    (b ≠ 0 → ¬ (a = intMin ∧ b = -1) → ictDiv a b = .ok (Int.tdiv a b)) ∧
    (∀ r, ictDiv a b = .ok r → r = Int.tdiv a b) ∧
    (ictMod a b = some .arithmeticException ↔ b = 0) ∧
    (ictMod a b = none ↔ (a = intMin ∧ b = -1)) ∧
    (b ≠ 0 → ¬ (a = intMin ∧ b = -1) → ictMod a b = some (.ok (Int.tmod a b))) ∧
    (∀ r, ictMod a b = some (.ok r) → r = Int.tmod a b) := by
  refine ⟨?_, ?_, ?_, ?_, ?_, ?_, ?_, ?_, ?_, ?_, ?_, ?_, ?_, ?_, ?_, ?_, ?_, ?_, ?_⟩
  · by_cases h : intRepresentable (a + b) <;> simp [ictPlus, safePlus, h]
  · by_cases h : intRepresentable (a + b) <;> simp [ictPlus, safePlus, h]
  · intro r; by_cases h : intRepresentable (a + b) <;> simp [ictPlus, safePlus, h]
    intro hr; exact hr.symm
  · by_cases h : intRepresentable (a - b) <;> simp [ictMinus, safeMinus, h]
  · by_cases h : intRepresentable (a - b) <;> simp [ictMinus, safeMinus, h]
  · intro r; by_cases h : intRepresentable (a - b) <;> simp [ictMinus, safeMinus, h]
    intro hr; exact hr.symm
  · by_cases h : intRepresentable (-a) <;> simp [ictUnaryMinus, safeUnaryMinus, h]
  · by_cases h : intRepresentable (-a) <;> simp [ictUnaryMinus, safeUnaryMinus, h]
  · intro r; by_cases h : intRepresentable (-a) <;> simp [ictUnaryMinus, safeUnaryMinus, h]
    intro hr; exact hr.symm
  · by_cases h : intRepresentable (a * b) <;> simp [ictMultiply, safeMultiply, h]
  · by_cases h : intRepresentable (a * b) <;> simp [ictMultiply, safeMultiply, h]
  · intro r; by_cases h : intRepresentable (a * b) <;> simp [ictMultiply, safeMultiply, h]
    intro hr; exact hr.symm
  · by_cases hb : b = 0
    · simp [ictDiv, hb]
    · by_cases hm : a = intMin ∧ b = -1 <;> simp [ictDiv, hb, hm]
  · intro hb hm; simp [ictDiv, hb, hm]
  · intro r
    by_cases hb : b = 0
    · simp [ictDiv, hb]
    · by_cases hm : a = intMin ∧ b = -1 <;> simp [ictDiv, hb, hm]
      intro hr; exact hr.symm
  · by_cases hb : b = 0
    · simp [ictMod, hb]
    · by_cases hm : a = intMin ∧ b = -1 <;> simp [ictMod, hb, hm]
  · by_cases hb : b = 0
    · simp [ictMod, hb]
    · by_cases hm : a = intMin ∧ b = -1 <;> simp [ictMod, hb, hm]
  · intro hb hm; simp [ictMod, hb, hm]
  · intro r
    by_cases hb : b = 0
    · simp [ictMod, hb]
    · by_cases hm : a = intMin ∧ b = -1 <;> simp [ictMod, hb, hm]
      intro hr; exact hr.symm

/-- Concrete evaluations of the arithmetic characterization, including the
exception cases overflow, zero divisor and minimal integer divided by -1,
and an exact quotient and remainder. -/
theorem ict_operations_witness :
    ictDiv 7 (-2) = .ok (Int.tdiv 7 (-2)) ∧
    ictMod 9 4 = some (.ok (Int.tmod 9 4)) ∧
    ictDiv intMin (-1) = .arithmeticException ∧
    ictDiv 5 0 = .arithmeticException ∧
    ictPlus intMax 1 = .arithmeticException := by
  obtain ⟨-, -, -, -, -, -, -, -, -, -, -, -, hdE, hdOk, -, -, -, -, -⟩ :=
    ict_operations_exact_or_exception (7 : Int) (-2 : Int)
  obtain ⟨-, -, -, -, -, -, -, -, -, -, -, -, -, -, -, -, -, hmOk, -⟩ :=
    ict_operations_exact_or_exception (9 : Int) (4 : Int)
  obtain ⟨-, -, -, -, -, -, -, -, -, -, -, -, hdE2, -, -, -, -, -, -⟩ :=
    ict_operations_exact_or_exception intMin (-1 : Int)
  obtain ⟨-, -, -, -, -, -, -, -, -, -, -, -, hdE3, -, -, -, -, -, -⟩ :=
    ict_operations_exact_or_exception (5 : Int) (0 : Int)
  obtain ⟨-, hpE, -, -, -, -, -, -, -, -, -, -, -, -, -, -, -, -, -⟩ :=
    ict_operations_exact_or_exception intMax (1 : Int)
  refine ⟨hdOk (by decide) (by decide), hmOk (by decide) (by decide),
    hdE2.mpr (Or.inr ⟨rfl, rfl⟩), hdE3.mpr (Or.inl rfl), hpE.mpr (by decide)⟩

/-- Claim C9: evaluation of the modulo operator at the failing input.
Theory.cpp guards dividing the minimal machine integer by -1 in operator/
(line 102) but not in operator%, whose only guard is the zero divisor
(lines 113-115); at _val = INT_MIN, num._val = -1 the machine remainder
overflows, which is undefined behavior (a hardware trap on mainstream
platforms), so the operation neither returns the exact result 0 nor
raises the recoverable ArithmeticException claimed; the embedding renders
that unguarded trap path as none, in contrast with the guarded division
at the same input and with well-defined modulo inputs. -/
theorem ict_mod_missing_overflow_guard :
    ictMod intMin (-1) = none ∧
    ictDiv intMin (-1) = .arithmeticException ∧
    ictMod intMin 1 = some (.ok 0) ∧
    ictMod 7 (-2) = some (.ok 1) ∧
    ictMod 5 0 = some .arithmeticException := by
  decide

/-! ## Forward demodulation rewrite acceptance
(Inferences/ForwardDemodulation.cpp, ForwardDemodulation::perform)

For one candidate unit equality returned by the demodulation LHS index for
the subterm trm of literal number li of the given clause, the code decides
whether the rewrite of trm to the instantiated right-hand side rhsS is
accepted.  The inputs below correspond to the local values of the loop
body: pOnly is _preorderedOnly, rc is
env.options->demodulationRedundancyCheck(), ord compares terms and lord
compares literals under the simplification ordering, argOrder is the
cached argument order tag of the indexed equality literal, and eqLitS is
the instantiated rewriting equation qr.substitution->applyToBoundResult(qr.literal). -/

/-- Line 91: the top-level redundancy check applies when the option is on,
the literal is an equality, and the rewritten subterm is one of its two
top-level sides. -/
def fdToplevelCheckFlag (rc : Bool) (lit : Lit) (trm : FTerm) : Bool :=
  rc && lit.isEquality && (trm == lit.arg0 || trm == lit.arg1)

/-- Line 120: the candidate equation is pre-ordered when its cached
argument order tag is LESS or GREATER. -/
def fdPreordered (argOrder : ArgumentOrder) : Bool :=
  argOrder == .LESS || argOrder == .GREATER

/-- Line 131: the candidate survives the ordering check unless it is not
pre-ordered and either only pre-ordered demodulation is allowed or the
comparison of the rewritten subterm with the instantiated right-hand side
is not GREATER. -/
def fdOrderingCheck (pOnly preordered : Bool) (cmp : OrdResult) : Bool :=
  !(!preordered && (pOnly || !(cmp == .GREATER)))

/-- Lines 140-149: the instantiated rewriting equation is maximal with
respect to the remaining literals of the given clause when no other
literal compares GREATER than it, that is, the comparison of eqLitS with
every literal other than number li is not LESS. -/
def fdIsMax (lord : Lit → Lit → OrdResult) (eqLitS : Lit) (cl : List Lit)
    (li : Nat) : Bool :=
  cl.enum.all (fun kl => kl.1 == li || !(lord eqLitS kl.2 == .LESS))

/-- Lines 135-163: given that the top-level check applies, the rewrite is
blocked when the instantiated right-hand side compares neither LESS nor
LESS_EQ to the other side of the equality literal and the instantiated
rewriting equation is maximal with respect to the remaining literals. -/
def fdTlBlocks (ord : FTerm → FTerm → OrdResult) (lord : Lit → Lit → OrdResult)
    (cl : List Lit) (li : Nat) (lit : Lit) (trm rhsS : FTerm) (eqLitS : Lit) :
    Bool :=
  let other := getOtherEqualitySide lit trm
  let tord := ord rhsS other
  if !(tord == .LESS) && !(tord == .LESS_EQ) then
    fdIsMax lord eqLitS cl li
  else
    false

/-- Lines 119-163 of ForwardDemodulation::perform for one candidate: the
rewrite is accepted (the loop body proceeds to the replacement) exactly
when the ordering check of line 131 does not skip the candidate and the
top-level redundancy check of lines 135-163 does not skip it either. -/
def fdAccepts (pOnly rc : Bool) (ord : FTerm → FTerm → OrdResult)
    (lord : Lit → Lit → OrdResult) (cl : List Lit) (li : Nat)
    (trm : FTerm) (argOrder : ArgumentOrder) (rhsS : FTerm) (eqLitS : Lit) :
    Bool :=
  let lit := cl.getD li default
  let preordered := fdPreordered argOrder
  if !(fdOrderingCheck pOnly preordered (ord trm rhsS)) then
    false
  else if fdToplevelCheckFlag rc lit trm then
    !(fdTlBlocks ord lord cl li lit trm rhsS eqLitS)
  else
    true

theorem fdAccepts_orderingCheck {pOnly rc : Bool} {ord : FTerm → FTerm → OrdResult}
    {lord : Lit → Lit → OrdResult} {cl : List Lit} {li : Nat} {trm : FTerm}
    {argOrder : ArgumentOrder} {rhsS : FTerm} {eqLitS : Lit}
    (h : fdAccepts pOnly rc ord lord cl li trm argOrder rhsS eqLitS = true) :
    fdOrderingCheck pOnly (fdPreordered argOrder) (ord trm rhsS) = true := by
  unfold fdAccepts at h
  by_cases hoc : fdOrderingCheck pOnly (fdPreordered argOrder) (ord trm rhsS) = true
  · exact hoc
  · rw [Bool.not_eq_true] at hoc
    simp [hoc] at h

/-- Claim C3: a candidate rewrite in forward demodulation is accepted only
if the rewritten subterm is strictly greater than the instantiated
right-hand side under the simplification ordering, except that a
pre-ordered equation (cached argument order tag LESS or GREATER) passes the
ordering check of line 131 without the comparison being consulted: the
check succeeds for every comparison outcome and every value of the
preordered-only option. -/
theorem fd_rewrite_needs_greater (pOnly rc : Bool)
    (ord : FTerm → FTerm → OrdResult) (lord : Lit → Lit → OrdResult)
    (cl : List Lit) (li : Nat) (trm : FTerm) (argOrder : ArgumentOrder)
    (rhsS : FTerm) (eqLitS : Lit) :
    (fdAccepts pOnly rc ord lord cl li trm argOrder rhsS eqLitS = true →
      fdPreordered argOrder = false → ord trm rhsS = .GREATER) ∧
    (fdPreordered argOrder = true →
      ∀ (pOnly2 : Bool) (cmp : OrdResult), fdOrderingCheck pOnly2 true cmp = true) := by
  constructor
  · intro hacc hpre
    have hoc := fdAccepts_orderingCheck hacc
    rw [hpre] at hoc
    unfold fdOrderingCheck at hoc
    simp only [Bool.not_false, Bool.true_and, Bool.not_eq_true',
      Bool.or_eq_false_iff] at hoc
    have h2 := hoc.2
    rw [Bool.not_eq_false'] at h2
    exact beq_iff_eq.1 h2
  · intro _ pOnly2 cmp
    simp [fdOrderingCheck]

/-- Witness for claim C3: a concrete accepted, non-pre-ordered candidate,
from which the theorem yields that the comparison was GREATER. -/
theorem fd_rewrite_needs_greater_witness :
    (fun _ _ : FTerm => OrdResult.GREATER) (.app 1 [.app 2 []]) (.app 2 []) =
      OrdResult.GREATER ∧
    fdOrderingCheck true true OrdResult.INCOMPARABLE = true := by
  have h := fd_rewrite_needs_greater false false
    (fun _ _ => OrdResult.GREATER) (fun _ _ => OrdResult.EQUAL)
    [⟨true, 1, [.app 1 [.app 2 []]]⟩] 0 (.app 1 [.app 2 []])
    ArgumentOrder.UNKNOWN (.app 2 []) ⟨true, 0, []⟩
  have h2 := fd_rewrite_needs_greater false false
    (fun _ _ => OrdResult.GREATER) (fun _ _ => OrdResult.EQUAL)
    [⟨true, 1, [.app 1 [.app 2 []]]⟩] 0 (.app 1 [.app 2 []])
    ArgumentOrder.LESS (.app 2 []) ⟨true, 0, []⟩
  exact ⟨h.1 (by decide) (by decide), h2.2 (by decide) true OrdResult.INCOMPARABLE⟩

/-- Claim C4: given that the ordering check passed, forward demodulation
refuses the rewrite exactly when the top-level redundancy check applies
(option on, equality literal, rewritten subterm a top-level side) and the
instantiated right-hand side compares neither LESS nor LESS_EQ to the other
side of that equality and the instantiated rewriting equation is maximal
with respect to the remaining literals of the clause; moreover maximality
means precisely that no literal other than number li compares GREATER than
the instantiated equation, that is, the literal comparison is never LESS. -/
theorem fd_toplevel_redundancy (pOnly rc : Bool)
    (ord : FTerm → FTerm → OrdResult) (lord : Lit → Lit → OrdResult)
    (cl : List Lit) (li : Nat) (trm : FTerm) (argOrder : ArgumentOrder)
    (rhsS : FTerm) (eqLitS : Lit)
    (hoc : fdOrderingCheck pOnly (fdPreordered argOrder) (ord trm rhsS) = true) :
    (fdAccepts pOnly rc ord lord cl li trm argOrder rhsS eqLitS = false ↔
      (fdToplevelCheckFlag rc (cl.getD li default) trm = true ∧
       ord rhsS (getOtherEqualitySide (cl.getD li default) trm) ≠ .LESS ∧
       ord rhsS (getOtherEqualitySide (cl.getD li default) trm) ≠ .LESS_EQ ∧
       fdIsMax lord eqLitS cl li = true)) ∧
    (fdIsMax lord eqLitS cl li = true ↔
      ∀ (k : Nat) (l2 : Lit), cl.get? k = some l2 → k ≠ li →
        lord eqLitS l2 ≠ .LESS) := by
  constructor
  · unfold fdAccepts
    simp only [List.getD]
    simp only [hoc, Bool.not_true, Bool.false_eq_true, if_false]
    by_cases hflag : fdToplevelCheckFlag rc (cl[li]?.getD default) trm = true
    · by_cases h1 : ord rhsS (getOtherEqualitySide (cl[li]?.getD default) trm) = .LESS <;>
        by_cases h2 : ord rhsS (getOtherEqualitySide (cl[li]?.getD default) trm) = .LESS_EQ <;>
        simp [hflag, fdTlBlocks, h1, h2, and_assoc]
    · rw [Bool.not_eq_true] at hflag
      simp [hflag]
  · unfold fdIsMax
    rw [List.all_eq_true]
    constructor
    · intro h k l2 hget hkli
      have hmem : (k, l2) ∈ cl.enum := by
        rw [List.mk_mem_enum_iff_get?, hget]
      have hh := h (k, l2) hmem
      have hk : (k == li) = false := by simpa using hkli
      rw [hk] at hh
      simp only [Bool.false_or, Bool.not_eq_true'] at hh
      intro hcon
      rw [hcon] at hh
      simp at hh
    · intro h kl hkl
      have hget : cl.get? kl.1 = some kl.2 := by
        have := List.mem_enum_iff_get?.1 hkl
        simpa using this
      by_cases hk : kl.1 = li
      · simp [hk]
      · have := h kl.1 kl.2 hget hk
        have hkb : (kl.1 == li) = false := by simpa using hk
        rw [hkb]
        simp only [Bool.false_or, Bool.not_eq_true']
        simpa using this

/-- Witness for claim C4: a concrete blocked top-level rewrite.  The given
clause is the single equality literal f(a) = b, the rewritten subterm is
its left side f(a), the candidate right-hand side is c with c compared
GREATER to b, and the instantiated equation is maximal because the clause
has no other literal, so the rewrite is refused. -/
theorem fd_toplevel_redundancy_witness :
    fdAccepts false true (fun _ _ => OrdResult.GREATER)
      (fun _ _ => OrdResult.EQUAL)
      [⟨true, 0, [.app 1 [.app 2 []], .app 3 []]⟩] 0
      (.app 1 [.app 2 []]) ArgumentOrder.UNKNOWN (.app 4 []) ⟨true, 0, []⟩ = false ∧
    fdIsMax (fun _ _ => OrdResult.EQUAL) ⟨true, 0, []⟩
      [⟨true, 0, [.app 1 [.app 2 []], .app 3 []]⟩] 0 = true := by
  have h := fd_toplevel_redundancy false true (fun _ _ => OrdResult.GREATER)
    (fun _ _ => OrdResult.EQUAL)
    [⟨true, 0, [.app 1 [.app 2 []], .app 3 []]⟩] 0
    (.app 1 [.app 2 []]) ArgumentOrder.UNKNOWN (.app 4 []) ⟨true, 0, []⟩
    (by decide)
  refine ⟨h.1.mpr ⟨by decide, by decide, by decide, ?_⟩, ?_⟩
  · exact h.2.mpr (by
      intro k l2 hget hk
      cases k with
      | zero => exact absurd rfl hk
      | succ n => simp [List.get?] at hget)
  · exact h.2.mpr (by
      intro k l2 hget hk
      cases k with
      | zero => exact absurd rfl hk
      | succ n => simp [List.get?] at hget)

/-! ## Inner rewriting (Inferences/InnerRewriting.cpp, InnerRewriting::perform)

The code scans the literals of the given clause for the first negative
equality literal with a greater-or-equal side orientation that rewrites
some other literal; the first rewritten literal triggers the construction
of the rewritten clause, and any equational tautology produced on the way
short-circuits to deletion.  The embedding returns none when no literal
triggers a rewrite (the clause is kept untouched), some none when the
clause is deleted, and some (some res) when it is replaced by res. -/

/-- Lines 47-67: construction of the rewritten clause, walking all literal
positions; position i keeps the rewriting literal, positions before the
first rewritten position j are copied, position j receives the already
rewritten literal, and later positions are rewritten with a tautology
short-circuit. -/
def irBuildGo (i j : Nat) (rwLit nLit : Lit) (lhs rhs : FTerm) :
    List (Nat × Lit) → Option (List Lit)
  | [] => some []
  | kl :: rest =>
    let cur : Option Lit :=
      if kl.1 = i then some rwLit
      else if kl.1 < j then some kl.2
      else if kl.1 = j then some nLit
      else
        let rLit := replaceLit lhs rhs kl.2
        if isEqTautology rLit then none else some rLit
    match cur, irBuildGo i j rwLit nLit lhs rhs rest with
    | some c, some res => some (c :: res)
    | _, _ => none

/-- Lines 32-76: the inner loop over candidate rewritten positions j; the
first position (other than i) whose literal is changed by the rewrite
triggers either deletion (tautology) or the construction of the result. -/
def irInner (cl : List Lit) (i : Nat) (rwLit : Lit) (lhs rhs : FTerm) :
    List (Nat × Lit) → Option (Option (List Lit))
  | [] => none
  | jl :: rest =>
    if i = jl.1 then irInner cl i rwLit lhs rhs rest
    else if replaceLit lhs rhs jl.2 = jl.2 then irInner cl i rwLit lhs rhs rest
    else if isEqTautology (replaceLit lhs rhs jl.2) then some none
    else
      match irBuildGo i jl.1 rwLit (replaceLit lhs rhs jl.2) lhs rhs cl.enum with
      | none => some none
      | some res => some (some res)

/-- Lines 28-78: the outer loop over the literals of the clause, looking
for a negative equality literal with a greater-or-equal side orientation. -/
def irOuter (ord : FTerm → FTerm → OrdResult) (cl : List Lit) :
    List (Nat × Lit) → Option (Option (List Lit))
  | [] => none
  | il :: rest =>
    if il.2.isEquality && !il.2.pol then
      match hasGreaterEqualitySide ord il.2 with
      | some (lhs, rhs) =>
        match irInner cl il.1 il.2 lhs rhs cl.enum with
        | some r => some r
        | none => irOuter ord cl rest
      | none => irOuter ord cl rest
    else irOuter ord cl rest

/-- InnerRewriting::perform on a clause given as its literal list. -/
def irPerform (ord : FTerm → FTerm → OrdResult) (cl : List Lit) :
    Option (Option (List Lit)) :=
  irOuter ord cl cl.enum

/-- The clause with every literal other than position i rewritten by
lhs -> rhs. -/
def rewriteAllExcept (cl : List Lit) (i : Nat) (lhs rhs : FTerm) : List Lit :=
  cl.enum.map (fun kl => if kl.1 = i then kl.2 else replaceLit lhs rhs kl.2)

theorem irBuildGo_some_spec (i j : Nat) (rwLit nLit : Lit) (lhs rhs : FTerm) :
    ∀ (pairs : List (Nat × Lit)) (res : List Lit),
    irBuildGo i j rwLit nLit lhs rhs pairs = some res →
    res = pairs.map (fun kl =>
      if kl.1 = i then rwLit
      else if kl.1 < j then kl.2
      else if kl.1 = j then nLit
      else replaceLit lhs rhs kl.2) ∧
    ∀ kl ∈ pairs, kl.1 ≠ i → j < kl.1 →
      isEqTautology (replaceLit lhs rhs kl.2) = false
  | [], res => by
    intro h
    unfold irBuildGo at h
    injection h with h2
    subst h2
    simp
  | kl :: rest, res => by
    intro h
    unfold irBuildGo at h
    by_cases hi : kl.1 = i
    · simp only [hi, if_pos rfl] at h
      cases hrec : irBuildGo i j rwLit nLit lhs rhs rest with
      | none => rw [hrec] at h; cases h
      | some res2 =>
        rw [hrec] at h
        injection h with h2
        subst h2
        obtain ⟨hmap, htail⟩ := irBuildGo_some_spec i j rwLit nLit lhs rhs rest res2 hrec
        refine ⟨by simp [hi, hmap], ?_⟩
        intro kl2 hkl2 hne hgt
        rcases List.mem_cons.1 hkl2 with heq2 | h2
        · exact absurd (heq2 ▸ hi) hne
        · exact htail kl2 h2 hne hgt
    · by_cases hlt : kl.1 < j
      · simp only [if_neg hi, if_pos hlt] at h
        cases hrec : irBuildGo i j rwLit nLit lhs rhs rest with
        | none => rw [hrec] at h; cases h
        | some res2 =>
          rw [hrec] at h
          injection h with h2
          subst h2
          obtain ⟨hmap, htail⟩ := irBuildGo_some_spec i j rwLit nLit lhs rhs rest res2 hrec
          refine ⟨by simp [hi, hlt, hmap], ?_⟩
          intro kl2 hkl2 hne hgt
          rcases List.mem_cons.1 hkl2 with heq2 | h2
          · exact absurd (heq2 ▸ hgt) (heq2 ▸ (by omega : ¬ j < kl.1))
          · exact htail kl2 h2 hne hgt
      · by_cases hj : kl.1 = j
        · simp only [if_neg hi, if_neg hlt, if_pos hj] at h
          cases hrec : irBuildGo i j rwLit nLit lhs rhs rest with
          | none => rw [hrec] at h; cases h
          | some res2 =>
            rw [hrec] at h
            injection h with h2
            subst h2
            obtain ⟨hmap, htail⟩ := irBuildGo_some_spec i j rwLit nLit lhs rhs rest res2 hrec
            refine ⟨by simp [hi, hlt, hj, hmap, hj ▸ hi], ?_⟩
            intro kl2 hkl2 hne hgt
            rcases List.mem_cons.1 hkl2 with heq2 | h2
            · exact absurd (heq2 ▸ hgt) (heq2 ▸ (by omega : ¬ j < kl.1))
            · exact htail kl2 h2 hne hgt
        · by_cases htaut : isEqTautology (replaceLit lhs rhs kl.2) = true
          · simp only [if_neg hi, if_neg hlt, if_neg hj, htaut, if_pos rfl] at h
            cases hrec : irBuildGo i j rwLit nLit lhs rhs rest with
            | none => rw [hrec] at h; cases h
            | some res2 => rw [hrec] at h; cases h
          · rw [Bool.not_eq_true] at htaut
            simp only [if_neg hi, if_neg hlt, if_neg hj, htaut] at h
            rw [if_neg Bool.false_ne_true] at h
            cases hrec : irBuildGo i j rwLit nLit lhs rhs rest with
            | none => rw [hrec] at h; cases h
            | some res2 =>
              rw [hrec] at h
              injection h with h2
              subst h2
              obtain ⟨hmap, htail⟩ := irBuildGo_some_spec i j rwLit nLit lhs rhs rest res2 hrec
              refine ⟨by simp [hi, hlt, hj, hmap], ?_⟩
              intro kl2 hkl2 hne hgt
              rcases List.mem_cons.1 hkl2 with heq2 | h2
              · subst heq2; exact htaut
              · exact htail kl2 h2 hne hgt

theorem irBuildGo_none_spec (i j : Nat) (rwLit nLit : Lit) (lhs rhs : FTerm) :
    ∀ (pairs : List (Nat × Lit)),
    irBuildGo i j rwLit nLit lhs rhs pairs = none →
    ∃ kl ∈ pairs, kl.1 ≠ i ∧ ¬ kl.1 < j ∧ kl.1 ≠ j ∧
      isEqTautology (replaceLit lhs rhs kl.2) = true
  | [] => by
    intro h
    unfold irBuildGo at h
    cases h
  | kl :: rest => by
    intro h
    unfold irBuildGo at h
    by_cases hi : kl.1 = i
    · simp only [hi, if_pos rfl] at h
      cases hrec : irBuildGo i j rwLit nLit lhs rhs rest with
      | none =>
        obtain ⟨kl2, hmem, hspec⟩ := irBuildGo_none_spec i j rwLit nLit lhs rhs rest hrec
        exact ⟨kl2, List.mem_cons_of_mem kl hmem, hspec⟩
      | some res2 => rw [hrec] at h; cases h
    · by_cases hlt : kl.1 < j
      · simp only [if_neg hi, if_pos hlt] at h
        cases hrec : irBuildGo i j rwLit nLit lhs rhs rest with
        | none =>
          obtain ⟨kl2, hmem, hspec⟩ := irBuildGo_none_spec i j rwLit nLit lhs rhs rest hrec
          exact ⟨kl2, List.mem_cons_of_mem kl hmem, hspec⟩
        | some res2 => rw [hrec] at h; cases h
      · by_cases hj : kl.1 = j
        · simp only [if_neg hi, if_neg hlt, if_pos hj] at h
          cases hrec : irBuildGo i j rwLit nLit lhs rhs rest with
          | none =>
            obtain ⟨kl2, hmem, hspec⟩ := irBuildGo_none_spec i j rwLit nLit lhs rhs rest hrec
            exact ⟨kl2, List.mem_cons_of_mem kl hmem, hspec⟩
          | some res2 => rw [hrec] at h; cases h
        · by_cases htaut : isEqTautology (replaceLit lhs rhs kl.2) = true
          · exact ⟨kl, List.mem_cons_self kl rest, hi, hlt, hj, htaut⟩
          · rw [Bool.not_eq_true] at htaut
            simp only [if_neg hi, if_neg hlt, if_neg hj, htaut] at h
            rw [if_neg Bool.false_ne_true] at h
            cases hrec : irBuildGo i j rwLit nLit lhs rhs rest with
            | none =>
              obtain ⟨kl2, hmem, hspec⟩ := irBuildGo_none_spec i j rwLit nLit lhs rhs rest hrec
              exact ⟨kl2, List.mem_cons_of_mem kl hmem, hspec⟩
            | some res2 => rw [hrec] at h; cases h

theorem enum_getElem? (cl : List Lit) (m : Nat) :
    cl.enum[m]? = cl[m]?.map (fun a => (m, a)) := by
  simp [List.enum]

theorem mem_enum_get (cl : List Lit) (kl : Nat × Lit) (h : kl ∈ cl.enum) :
    cl[kl.1]? = some kl.2 :=
  List.mem_enum_iff_getElem?.1 h

theorem get_mem_enum (cl : List Lit) (kl : Nat × Lit) (h : cl[kl.1]? = some kl.2) :
    kl ∈ cl.enum :=
  List.mem_enum_iff_getElem?.2 h

theorem mem_enum_take_iff (cl : List Lit) (m : Nat) (kl : Nat × Lit) :
    kl ∈ cl.enum.take m ↔ kl.1 < m ∧ cl[kl.1]? = some kl.2 := by
  constructor
  · intro h
    obtain ⟨p, hp⟩ := List.mem_iff_getElem?.1 h
    have hplen : p < (cl.enum.take m).length := by
      rcases List.getElem?_eq_some_iff.1 hp with ⟨hlt, _⟩
      exact hlt
    have hpm : p < m := by
      have := List.length_take m cl.enum
      omega
    have hp2 : cl.enum[p]? = some kl :=
      (List.getElem?_take_of_lt hpm).symm.trans hp
    rw [enum_getElem?] at hp2
    cases hval : cl[p]? with
    | none => rw [hval] at hp2; cases hp2
    | some a =>
      rw [hval] at hp2
      injection hp2 with hp3
      rw [← hp3]
      exact ⟨hpm, hval⟩
  · intro h
    have henum : cl.enum[kl.1]? = some kl := by
      rw [enum_getElem?, h.2]
      rfl
    have ht : (cl.enum.take m)[kl.1]? = some kl := by
      rw [List.getElem?_take_of_lt h.1, henum]
    exact List.getElem?_mem ht

theorem enum_drop_cons (cl : List Lit) (m : Nat) (kl : Nat × Lit)
    (rest : List (Nat × Lit)) (h : cl.enum.drop m = kl :: rest) :
    kl.1 = m ∧ cl[m]? = some kl.2 ∧ rest = cl.enum.drop (m + 1) := by
  obtain ⟨k1, k2⟩ := kl
  have hm : m < cl.enum.length := by
    by_contra hge
    rw [List.drop_eq_nil_of_le (by omega)] at h
    cases h
  rw [List.drop_eq_getElem_cons hm] at h
  injection h with hhead htail
  have hg : cl.enum[m]? = some (k1, k2) := by
    rw [List.getElem?_eq_getElem hm, hhead]
  rw [enum_getElem?] at hg
  cases hval : cl[m]? with
  | none => rw [hval] at hg; cases hg
  | some a =>
    rw [hval] at hg
    simp only [Option.map_some'] at hg
    injection hg with hg2
    injection hg2 with e1 e2
    exact ⟨e1.symm, by simp [hval, ← e2], htail.symm⟩

theorem irInner_spec (cl : List Lit) (i : Nat) (rwLit : Lit) (lhs rhs : FTerm)
    (hrw : cl[i]? = some rwLit) :
    ∀ (pairs : List (Nat × Lit)) (m : Nat),
    pairs = cl.enum.drop m →
    (∀ kl : Nat × Lit, kl ∈ cl.enum.take m → kl.1 ≠ i →
        replaceLit lhs rhs kl.2 = kl.2) →
    ∀ r, irInner cl i rwLit lhs rhs pairs = some r →
    (r = none → ∃ k l2, k ≠ i ∧ cl[k]? = some l2 ∧
        isEqTautology (replaceLit lhs rhs l2) = true) ∧
    (∀ res, r = some res → res = rewriteAllExcept cl i lhs rhs ∧
      ∀ k l2, k ≠ i → cl[k]? = some l2 → replaceLit lhs rhs l2 ≠ l2 →
        isEqTautology (replaceLit lhs rhs l2) = false)
  | [], m => by
    intro hdrop hinv r h
    unfold irInner at h
    cases h
  | jl :: rest, m => by
    intro hdrop hinv r h
    obtain ⟨hj1, hjget, hrest⟩ := enum_drop_cons cl m jl rest hdrop.symm
    have henumm : cl.enum[m]? = some (m, jl.2) := by
      rw [enum_getElem?, hjget]; rfl
    unfold irInner at h
    by_cases hij : i = jl.1
    · rw [if_pos hij] at h
      refine irInner_spec cl i rwLit lhs rhs hrw rest (m + 1) hrest ?_ r h
      intro kl hkl hkne
      rw [List.take_succ, henumm] at hkl
      rcases List.mem_append.1 hkl with hin | hin
      · exact hinv kl hin hkne
      · simp only [Option.toList_some, List.mem_singleton] at hin
        subst hin
        exact absurd (hij.trans (hj1)).symm hkne
    · rw [if_neg hij] at h
      by_cases hch : replaceLit lhs rhs jl.2 = jl.2
      · rw [if_pos hch] at h
        refine irInner_spec cl i rwLit lhs rhs hrw rest (m + 1) hrest ?_ r h
        intro kl hkl hkne
        rw [List.take_succ, henumm] at hkl
        rcases List.mem_append.1 hkl with hin | hin
        · exact hinv kl hin hkne
        · simp only [Option.toList_some, List.mem_singleton] at hin
          subst hin
          exact hch
      · rw [if_neg hch] at h
        by_cases htaut : isEqTautology (replaceLit lhs rhs jl.2) = true
        · rw [if_pos htaut] at h
          injection h with h2
          subst h2
          refine ⟨fun _ => ?_, fun res hres => by cases hres⟩
          exact ⟨jl.1, jl.2, fun hx => hij hx.symm, by rw [hj1]; exact hjget, htaut⟩
        · rw [if_neg htaut] at h
          cases hbuild : irBuildGo i jl.1 rwLit (replaceLit lhs rhs jl.2) lhs rhs cl.enum with
          | none =>
            rw [hbuild] at h
            injection h with h2
            subst h2
            refine ⟨fun _ => ?_, fun res hres => by cases hres⟩
            obtain ⟨kl2, hmem, hne, hnlt, hnej, htaut2⟩ :=
              irBuildGo_none_spec i jl.1 rwLit (replaceLit lhs rhs jl.2) lhs rhs cl.enum hbuild
            exact ⟨kl2.1, kl2.2, hne, mem_enum_get cl kl2 hmem, htaut2⟩
          | some res0 =>
            rw [hbuild] at h
            injection h with h2
            subst h2
            refine ⟨fun hcon => Option.noConfusion hcon, ?_⟩
            intro res hres
            injection hres with h3
            subst h3
            obtain ⟨hmap, htail⟩ :=
              irBuildGo_some_spec i jl.1 rwLit (replaceLit lhs rhs jl.2) lhs rhs cl.enum res0 hbuild
            constructor
            · rw [hmap]
              unfold rewriteAllExcept
              apply List.map_congr_left
              intro kl hkl
              have hklget : cl[kl.1]? = some kl.2 := mem_enum_get cl kl hkl
              by_cases hki : kl.1 = i
              · have hv : kl.2 = rwLit := by
                  rw [hki] at hklget
                  rw [hklget] at hrw
                  injection hrw
                simp [hki, hv]
              · by_cases hklt : kl.1 < jl.1
                · have hkm : kl.1 < m := hj1 ▸ hklt
                  have hunch : replaceLit lhs rhs kl.2 = kl.2 :=
                    hinv kl ((mem_enum_take_iff cl m kl).2 ⟨hkm, hklget⟩) hki
                  simp [hki, hklt, hunch]
                · by_cases hkj : kl.1 = jl.1
                  · have hv : kl.2 = jl.2 := by
                      rw [hkj, hj1] at hklget
                      injection hklget.symm.trans hjget
                    simp [hki, hklt, hkj, hv, hkj ▸ hki]
                  · simp [hki, hklt, hkj]
            · intro k l2 hkne hkget hkch
              by_cases hkj : k = jl.1
              · have hv : l2 = jl.2 := by
                  rw [hkj, hj1] at hkget
                  injection hkget.symm.trans hjget
                subst hv
                exact Bool.not_eq_true _ ▸ htaut
              · by_cases hklt2 : k < jl.1
                · exact absurd
                    (hinv (k, l2) ((mem_enum_take_iff cl m (k, l2)).2
                      ⟨hj1 ▸ hklt2, hkget⟩) hkne) hkch
                · exact htail (k, l2) (get_mem_enum cl (k, l2) hkget) hkne (by omega)

theorem hasGreaterEqualitySide_spec (ord : FTerm → FTerm → OrdResult) (l : Lit)
    (lhs rhs : FTerm) (h : hasGreaterEqualitySide ord l = some (lhs, rhs)) :
    (l.args = [lhs, rhs] ∧ (ord lhs rhs = .GREATER ∨ ord lhs rhs = .GREATER_EQ)) ∨
    (l.args = [rhs, lhs] ∧ (ord rhs lhs = .LESS ∨ ord rhs lhs = .LESS_EQ)) := by
  unfold hasGreaterEqualitySide at h
  cases hargs : l.args with
  | nil => rw [hargs] at h; cases h
  | cons s ts =>
    cases ts with
    | nil => rw [hargs] at h; cases h
    | cons t ts2 =>
      cases ts2 with
      | cons u ts3 => rw [hargs] at h; cases h
      | nil =>
        rw [hargs] at h
        cases hord : ord s t <;> simp [hord] at h
        · obtain ⟨e1, e2⟩ := h
          subst e1; subst e2
          exact Or.inl ⟨rfl, Or.inl hord⟩
        · obtain ⟨e1, e2⟩ := h
          subst e1; subst e2
          exact Or.inr ⟨rfl, Or.inl hord⟩
        · obtain ⟨e1, e2⟩ := h
          subst e1; subst e2
          exact Or.inl ⟨rfl, Or.inr hord⟩
        · obtain ⟨e1, e2⟩ := h
          subst e1; subst e2
          exact Or.inr ⟨rfl, Or.inr hord⟩

theorem irOuter_spec (ord : FTerm → FTerm → OrdResult) (cl : List Lit) :
    ∀ (items : List (Nat × Lit)),
    (∀ kl ∈ items, kl ∈ cl.enum) →
    ∀ r, irOuter ord cl items = some r →
    ∃ i rwLit lhs rhs,
      cl[i]? = some rwLit ∧ rwLit.pol = false ∧ rwLit.isEquality = true ∧
      hasGreaterEqualitySide ord rwLit = some (lhs, rhs) ∧
      (r = none → ∃ k l2, k ≠ i ∧ cl[k]? = some l2 ∧
          isEqTautology (replaceLit lhs rhs l2) = true) ∧
      (∀ res, r = some res → res = rewriteAllExcept cl i lhs rhs ∧
        ∀ k l2, k ≠ i → cl[k]? = some l2 → replaceLit lhs rhs l2 ≠ l2 →
          isEqTautology (replaceLit lhs rhs l2) = false)
  | [] => by
    intro hsub r h
    unfold irOuter at h
    cases h
  | il :: rest => by
    intro hsub r h
    have hsubr : ∀ kl ∈ rest, kl ∈ cl.enum :=
      fun kl hkl => hsub kl (List.mem_cons_of_mem il hkl)
    unfold irOuter at h
    by_cases hcond : (il.2.isEquality && !il.2.pol) = true
    · rw [if_pos hcond] at h
      split at h
      · rename_i lhs rhs hges
        split at h
        · rename_i r2 hin
          injection h with h2
          subst h2
          have hget : cl[il.1]? = some il.2 :=
            mem_enum_get cl il (List.mem_cons_self il rest |> hsub il)
          obtain ⟨b1, b2⟩ :=
            irInner_spec cl il.1 il.2 lhs rhs hget cl.enum 0 (by simp) (by simp) r2 hin
          rw [Bool.and_eq_true, Bool.not_eq_true'] at hcond
          exact ⟨il.1, il.2, lhs, rhs, hget, hcond.2, hcond.1, hges, b1, b2⟩
        · exact irOuter_spec ord cl rest hsubr r h
      · exact irOuter_spec ord cl rest hsubr r h
    · rw [if_neg hcond] at h
      exact irOuter_spec ord cl rest hsubr r h

/-- Claim C7: whenever InnerRewriting::perform acts on a clause (deleting it
or producing a rewritten clause), the rewriting literal is a negative
equality literal with one side greater than or equal to the other under the
ordering; the greater side is rewritten to the smaller side in every other
literal of the clause, and the clause is deleted rather than replaced
exactly when the rewriting produces an equational tautology: a deletion
exhibits a tautological rewritten literal, and a produced clause is the
full rewrite of all other literals with no changed literal tautological. -/
theorem innerRewriting_oriented_negative_equality
    (ord : FTerm → FTerm → OrdResult) (cl : List Lit) (r : Option (List Lit))
    (h : irPerform ord cl = some r) :
    ∃ i rwLit lhs rhs,
      cl[i]? = some rwLit ∧ rwLit.pol = false ∧ rwLit.isEquality = true ∧
      hasGreaterEqualitySide ord rwLit = some (lhs, rhs) ∧
      ((rwLit.args = [lhs, rhs] ∧ (ord lhs rhs = .GREATER ∨ ord lhs rhs = .GREATER_EQ)) ∨
       (rwLit.args = [rhs, lhs] ∧ (ord rhs lhs = .LESS ∨ ord rhs lhs = .LESS_EQ))) ∧
      (r = none → ∃ k l2, k ≠ i ∧ cl[k]? = some l2 ∧
          isEqTautology (replaceLit lhs rhs l2) = true) ∧
      (∀ res, r = some res → res = rewriteAllExcept cl i lhs rhs ∧
        ∀ k l2, k ≠ i → cl[k]? = some l2 → replaceLit lhs rhs l2 ≠ l2 →
          isEqTautology (replaceLit lhs rhs l2) = false) := by
  obtain ⟨i, rwLit, lhs, rhs, hget, hpol, heq, hges, b1, b2⟩ :=
    irOuter_spec ord cl cl.enum (fun kl hkl => hkl) r h
  exact ⟨i, rwLit, lhs, rhs, hget, hpol, heq, hges,
    hasGreaterEqualitySide_spec ord rwLit lhs rhs hges, b1, b2⟩

/-- Concrete term a used by the inner-rewriting witness. -/
def irWitnessTermA : FTerm := .app 10 []

/-- Concrete term b used by the inner-rewriting witness. -/
def irWitnessTermB : FTerm := .app 11 []

/-- Concrete ordering used by the inner-rewriting witness: a is GREATER
than b, everything else is EQUAL or INCOMPARABLE. -/
def irWitnessOrd : FTerm → FTerm → OrdResult := fun s t =>
  if s = irWitnessTermA ∧ t = irWitnessTermB then .GREATER
  else if s = t then .EQUAL else .INCOMPARABLE

/-- Concrete clause used by the inner-rewriting witness: the negative
equality a != b followed by the literal P(a). -/
def irWitnessClause : List Lit :=
  [Lit.mk false 0 [irWitnessTermA, irWitnessTermB], Lit.mk true 1 [irWitnessTermA]]

/-- Witness for claim C7: on the clause a != b, P(a) with a greater than b,
inner rewriting produces the clause a != b, P(b), and the theorem applied
to this concrete run yields the rewriting-literal characterisation. -/
theorem innerRewriting_oriented_negative_equality_witness :
    ∃ i rwLit lhs rhs,
      irWitnessClause[i]? = some rwLit ∧ rwLit.pol = false ∧
      rwLit.isEquality = true ∧
      hasGreaterEqualitySide irWitnessOrd rwLit = some (lhs, rhs) ∧
      ((rwLit.args = [lhs, rhs] ∧
          (irWitnessOrd lhs rhs = .GREATER ∨ irWitnessOrd lhs rhs = .GREATER_EQ)) ∨
       (rwLit.args = [rhs, lhs] ∧
          (irWitnessOrd rhs lhs = .LESS ∨ irWitnessOrd rhs lhs = .LESS_EQ))) ∧
      ((some [Lit.mk false 0 [irWitnessTermA, irWitnessTermB],
          Lit.mk true 1 [irWitnessTermB]] : Option (List Lit)) = none →
        ∃ k l2, k ≠ i ∧ irWitnessClause[k]? = some l2 ∧
          isEqTautology (replaceLit lhs rhs l2) = true) ∧
      (∀ res, (some [Lit.mk false 0 [irWitnessTermA, irWitnessTermB],
          Lit.mk true 1 [irWitnessTermB]] : Option (List Lit)) = some res →
        res = rewriteAllExcept irWitnessClause i lhs rhs ∧
        ∀ k l2, k ≠ i → irWitnessClause[k]? = some l2 →
          replaceLit lhs rhs l2 ≠ l2 →
          isEqTautology (replaceLit lhs rhs l2) = false) :=
  innerRewriting_oriented_negative_equality irWitnessOrd irWitnessClause
    (some [Lit.mk false 0 [irWitnessTermA, irWitnessTermB],
      Lit.mk true 1 [irWitnessTermB]])
    (by decide)

/-! ## Forward subsumption
(Inferences/SLQueryForwardSubsumption.cpp, SLQueryForwardSubsumption::perform)

The simplifying literal index is modelled as a list of entries, each an
indexed clause paired with one of its literals; a generalization query for
a literal of the given clause returns the entries whose literal matches it.
The multi-literal matcher MLMatcher::canBeMatched lives in
Kernel/MLMatcher.hpp, which is not among the provided source files, and is
modelled from the specification as a back-tracking search that assigns each
candidate literal to a distinct query literal occurrence under one
consistent substitution. -/

abbrev IdxEntry := List Lit × Lit

/-- Well-formed index: every entry pairs a clause with one of its own
literals. -/
def idxWF (idx : List IdxEntry) : Prop := ∀ e ∈ idx, e.2 ∈ e.1

/-- Modelled from the spec: the generalization query of the simplifying
literal index (Indexing/LiteralIndex.hpp is not under src); it returns the
indexed entries whose literal matches the query literal. -/
def getGen (idx : List IdxEntry) (q : Lit) : List IdxEntry :=
  idx.filter (fun e => (matchLit [] e.2 q).isSome)

/-- Lines 104-125: the scan over the index results for one query literal;
a unit result clause ends the whole procedure with that premise, a result
clause longer than the given clause is skipped, and any other result is
recorded together with the query literal. -/
def slScanResults (clen : Nat) (q : Lit) :
    List IdxEntry → List (IdxEntry × Lit) → Sum (List Lit) (List (IdxEntry × Lit))
  | [], acc => .inr acc
  | e :: es, acc =>
    if e.1.length = 1 then .inl e.1
    else if clen < e.1.length then slScanResults clen q es acc
    else slScanResults clen q es (acc ++ [(e, q)])

/-- Lines 102-126: the outer loop of the recording phase over the literals
of the given clause. -/
def slPhase1 (idx : List IdxEntry) (clen : Nat) :
    List Lit → List (IdxEntry × Lit) → Sum (List Lit) (List (IdxEntry × Lit))
  | [], acc => .inr acc
  | q :: qs, acc =>
    match slScanResults clen q (getGen idx q) acc with
    | .inl premise => .inl premise
    | .inr acc2 => slPhase1 idx clen qs acc2

/-- Lines 144-164: the alternative query literals collected for one literal
of a candidate clause, tagged with their positions in the given clause; the
list is empty when the candidate literal was never returned by the index. -/
def slAlts (idx : List IdxEntry) (cl : List Lit) (mcl : List Lit) (m : Lit) :
    List (Nat × Lit) :=
  if (mcl, m) ∈ idx then cl.enum.filter (fun kq => (matchLit [] m kq.2).isSome)
  else []

mutual

/-- Modelled from the spec: MLMatcher::canBeMatched (Kernel/MLMatcher.hpp is
not under src); each remaining candidate literal is assigned to one of its
alternative query literal occurrences, distinct from the occurrences already
used, under a substitution extending the current one. -/
def canBeMatchedML (altsF : Lit → List (Nat × Lit)) :
    List Lit → Subst → List Nat → Bool
  | [], _, _ => true
  | m :: ms, s, used => tryAlternatives altsF m ms s used (altsF m)
termination_by lits _ _ => (lits.length, 0)

/-- Modelled from the spec: the back-tracking step of the multi-literal
matcher, trying the alternative occurrences of one candidate literal in
order. -/
def tryAlternatives (altsF : Lit → List (Nat × Lit)) (m : Lit) (ms : List Lit)
    (s : Subst) (used : List Nat) : List (Nat × Lit) → Bool
  | [] => false
  | kq :: rest =>
    if kq.1 ∈ used then tryAlternatives altsF m ms s used rest
    else
      match matchLit s m kq.2 with
      | some s2 =>
        canBeMatchedML altsF ms s2 (kq.1 :: used) ||
          tryAlternatives altsF m ms s used rest
      | none => tryAlternatives altsF m ms s used rest
termination_by alts => (ms.length, alts.length + 1)

end

/-- The candidate clauses of the second phase, in first-recorded order. -/
def slCandidates (recs : List (IdxEntry × Lit)) : List (List Lit) :=
  (recs.map (fun r => r.1.1)).dedup

/-- Line 140: the number of recorded matches of a candidate clause. -/
def slMatchCount (recs : List (IdxEntry × Lit)) (mcl : List Lit) : Nat :=
  (recs.filter (fun r => r.1.1 = mcl)).length

/-- Lines 128-184: the matching phase over the candidate clauses; a
candidate with fewer recorded matches than literals is skipped, the first
candidate accepted by the multi-literal matcher deletes the given clause
and is reported as the premise. -/
def slPhase2 (idx : List IdxEntry) (cl : List Lit) (recs : List (IdxEntry × Lit)) :
    List (List Lit) → Bool × List (List Lit) × List (List Lit)
  | [] => (true, [], [])
  | mcl :: more =>
    if slMatchCount recs mcl < mcl.length then slPhase2 idx cl recs more
    else if canBeMatchedML (slAlts idx cl mcl) mcl [] [] then (false, [], [mcl])
    else slPhase2 idx cl recs more

/-- SLQueryForwardSubsumption::perform (lines 87-196): the result is the
keep flag, the clauses to add (always none), and the reported premises.
An empty given clause is kept immediately (lines 94-98); when no
generalization is recorded the C++ leaves the keep flag untouched and the
caller keeps the clause. -/
def slPerform (idx : List IdxEntry) (cl : List Lit) :
    Bool × List (List Lit) × List (List Lit) :=
  if cl.length = 0 then (true, [], [])
  else
    match slPhase1 idx cl.length cl [] with
    | .inl premise => (false, [], [premise])
    | .inr recs =>
      if recs.isEmpty then (true, [], [])
      else slPhase2 idx cl recs (slCandidates recs)

theorem tryAlternatives_elim (altsF : Lit → List (Nat × Lit)) (m : Lit)
    (ms : List Lit) (s : Subst) (used : List Nat) :
    ∀ alts, tryAlternatives altsF m ms s used alts = true →
    ∃ kq ∈ alts, kq.1 ∉ used ∧ ∃ s2, matchLit s m kq.2 = some s2 ∧
      canBeMatchedML altsF ms s2 (kq.1 :: used) = true
  | [] => by
    intro h
    unfold tryAlternatives at h
    cases h
  | kq :: rest => by
    intro h
    unfold tryAlternatives at h
    by_cases hu : kq.1 ∈ used
    · rw [if_pos hu] at h
      obtain ⟨kq2, hmem, hrest⟩ := tryAlternatives_elim altsF m ms s used rest h
      exact ⟨kq2, List.mem_cons_of_mem kq hmem, hrest⟩
    · rw [if_neg hu] at h
      cases hm : matchLit s m kq.2 with
      | none =>
        rw [hm] at h
        obtain ⟨kq2, hmem, hrest⟩ := tryAlternatives_elim altsF m ms s used rest h
        exact ⟨kq2, List.mem_cons_of_mem kq hmem, hrest⟩
      | some s2 =>
        rw [hm] at h
        rcases Bool.or_eq_true_iff.1 h with hc | hc
        · exact ⟨kq, List.mem_cons_self kq rest, hu, s2, hm, hc⟩
        · obtain ⟨kq2, hmem, hrest⟩ := tryAlternatives_elim altsF m ms s used rest hc
          exact ⟨kq2, List.mem_cons_of_mem kq hmem, hrest⟩

theorem canBeMatchedML_sound (altsF : Lit → List (Nat × Lit)) :
    ∀ (lits : List Lit) (s : Subst) (used : List Nat),
    canBeMatchedML altsF lits s used = true →
    ∃ (sf : Subst) (picks : List (Nat × Lit)),
      substExtends s sf ∧
      List.Forall₂ (fun m p => p ∈ altsF m ∧ applyLit sf m = p.2) lits picks ∧
      (picks.map Prod.fst).Nodup ∧ ∀ p ∈ picks, p.1 ∉ used
  | [], s, used => by
    intro _
    exact ⟨s, [], substExtends_refl s, List.Forall₂.nil, List.nodup_nil, by simp⟩
  | m :: ms, s, used => by
    intro h
    unfold canBeMatchedML at h
    obtain ⟨kq, hkq, hu, s2, hm, hrec⟩ :=
      tryAlternatives_elim altsF m ms s used (altsF m) h
    obtain ⟨sf, picks, hext, hall, hnodup, hused⟩ :=
      canBeMatchedML_sound altsF ms s2 (kq.1 :: used) hrec
    refine ⟨sf, kq :: picks, ?_, ?_, ?_, ?_⟩
    · exact substExtends_trans (matchLit_extends hm) hext
    · exact List.Forall₂.cons ⟨hkq, matchLit_sound hm sf hext⟩ hall
    · rw [List.map_cons, List.nodup_cons]
      refine ⟨?_, hnodup⟩
      intro hin
      obtain ⟨p, hp, hp2⟩ := List.mem_map.1 hin
      exact (hused p hp) (hp2 ▸ List.mem_cons_self kq.1 used)
    · intro p hp
      rcases List.mem_cons.1 hp with rfl | hp2
      · exact hu
      · exact fun hc => (hused p hp2) (List.mem_cons_of_mem kq.1 hc)

theorem slScanResults_inl (clen : Nat) (q : Lit) :
    ∀ (es : List IdxEntry) (acc : List (IdxEntry × Lit)) (C : List Lit),
    slScanResults clen q es acc = .inl C →
    ∃ e ∈ es, e.1 = C ∧ C.length = 1
  | [], acc, C => by
    intro h
    unfold slScanResults at h
    cases h
  | e :: es, acc, C => by
    intro h
    unfold slScanResults at h
    by_cases h1 : e.1.length = 1
    · rw [if_pos h1] at h
      injection h with h2
      exact ⟨e, List.mem_cons_self e es, h2, h2 ▸ h1⟩
    · rw [if_neg h1] at h
      by_cases h2 : clen < e.1.length
      · rw [if_pos h2] at h
        obtain ⟨e2, hmem, hspec⟩ := slScanResults_inl clen q es acc C h
        exact ⟨e2, List.mem_cons_of_mem e hmem, hspec⟩
      · rw [if_neg h2] at h
        obtain ⟨e2, hmem, hspec⟩ := slScanResults_inl clen q es (acc ++ [(e, q)]) C h
        exact ⟨e2, List.mem_cons_of_mem e hmem, hspec⟩

theorem slPhase1_inl (idx : List IdxEntry) (clen : Nat) :
    ∀ (qs : List Lit) (acc : List (IdxEntry × Lit)) (C : List Lit),
    slPhase1 idx clen qs acc = .inl C →
    ∃ q ∈ qs, ∃ e ∈ getGen idx q, e.1 = C ∧ C.length = 1
  | [], acc, C => by
    intro h
    unfold slPhase1 at h
    cases h
  | q :: qs, acc, C => by
    intro h
    unfold slPhase1 at h
    cases hscan : slScanResults clen q (getGen idx q) acc with
    | inl premise =>
      rw [hscan] at h
      injection h with h2
      subst h2
      obtain ⟨e, hmem, hspec⟩ := slScanResults_inl clen q (getGen idx q) acc premise hscan
      exact ⟨q, List.mem_cons_self q qs, e, hmem, hspec⟩
    | inr acc2 =>
      rw [hscan] at h
      obtain ⟨q2, hq2, hrest⟩ := slPhase1_inl idx clen qs acc2 C h
      exact ⟨q2, List.mem_cons_of_mem q hq2, hrest⟩

theorem slPhase2_false (idx : List IdxEntry) (cl : List Lit)
    (recs : List (IdxEntry × Lit)) :
    ∀ (cands : List (List Lit)) (ta pr : List (List Lit)) (C : List Lit),
    slPhase2 idx cl recs cands = (false, ta, pr) → pr = [C] →
    canBeMatchedML (slAlts idx cl C) C [] [] = true
  | [], ta, pr, C => by
    intro h
    unfold slPhase2 at h
    injection h with h1 h2
    cases h1
  | mcl :: more, ta, pr, C => by
    intro h hpr
    unfold slPhase2 at h
    by_cases h1 : slMatchCount recs mcl < mcl.length
    · rw [if_pos h1] at h
      exact slPhase2_false idx cl recs more ta pr C h hpr
    · rw [if_neg h1] at h
      by_cases h2 : canBeMatchedML (slAlts idx cl mcl) mcl [] [] = true
      · rw [if_pos h2] at h
        injection h with ha hb
        injection hb with hb1 hb2
        subst hb2
        injection hpr with he
        exact he ▸ h2
      · rw [if_neg h2] at h
        exact slPhase2_false idx cl recs more ta pr C h hpr

theorem subperm_map {α β : Type} (f : α → β) {l1 l2 : List α}
    (h : l1.Subperm l2) : (l1.map f).Subperm (l2.map f) := by
  obtain ⟨l, hp, hs⟩ := h
  exact ⟨l.map f, hp.map f, hs.map f⟩

theorem forall2_apply_eq (sf : Subst) (altsF : Lit → List (Nat × Lit)) :
    ∀ (lits : List Lit) (picks : List (Nat × Lit)),
    List.Forall₂ (fun m p => p ∈ altsF m ∧ applyLit sf m = p.2) lits picks →
    lits.map (applyLit sf) = picks.map Prod.snd := by
  intro lits picks h
  induction h with
  | nil => rfl
  | cons hR hrest ih => simp [hR.2, ih]

theorem forall2_picks_mem (sf : Subst) (idx : List IdxEntry) (cl mcl : List Lit) :
    ∀ (lits : List Lit) (picks : List (Nat × Lit)),
    List.Forall₂ (fun m p => p ∈ slAlts idx cl mcl m ∧ applyLit sf m = p.2)
      lits picks →
    ∀ p ∈ picks, p ∈ cl.enum := by
  intro lits picks h
  induction h with
  | nil => simp
  | cons hR hrest ih =>
    intro p hp
    rcases List.mem_cons.1 hp with rfl | hp2
    · have hm := hR.1
      unfold slAlts at hm
      split at hm
      · exact (List.mem_filter.1 hm).1
      · cases hm
    · exact ih p hp2

theorem enum_map_snd_self (cl : List Lit) : cl.enum.map Prod.snd = cl := by
  simp [List.enum, List.enumFrom_map_snd]

/-- Claim C10: forward subsumption applied to an empty given clause always
keeps it: the keep flag is set to true, no premise is reported and no
clause is added, for every state of the index. -/
theorem forward_subsumption_keeps_empty_clause (idx : List IdxEntry) :
    slPerform idx [] = (true, [], []) := by
  unfold slPerform
  simp

/-- Claim C5: whenever forward subsumption deletes the given clause and
reports a premise clause C, C has at most as many literals as the given
clause, and there is a substitution under which the instantiated literals
of C form a sub-multiset (a subpermutation) of the literals of the given
clause; in particular a candidate with strictly more literals than the
given clause is never reported. -/
theorem forward_subsumption_sound (idx : List IdxEntry) (cl C : List Lit)
    (ta : List (List Lit)) (hwf : idxWF idx)
    (h : slPerform idx cl = (false, ta, [C])) :
    C.length ≤ cl.length ∧ ∃ sf : Subst, (C.map (applyLit sf)).Subperm cl := by
  unfold slPerform at h
  by_cases hlen : cl.length = 0
  · rw [if_pos hlen] at h
    injection h with h1 _
    cases h1
  · rw [if_neg hlen] at h
    cases hp1 : slPhase1 idx cl.length cl [] with
    | inl premise =>
      rw [hp1] at h
      injection h with h1 h2
      injection h2 with h2a h2b
      injection h2b with he _
      subst he
      obtain ⟨q, hq, e, hgen, heC, hlen1⟩ :=
        slPhase1_inl idx cl.length cl [] premise hp1
      have hmemidx : e ∈ idx := (List.mem_filter.1 hgen).1
      have hmatch : (matchLit [] e.2 q).isSome = true := by
        simpa using (List.mem_filter.1 hgen).2
      obtain ⟨s2, hs2⟩ := Option.isSome_iff_exists.1 hmatch
      have happ : applyLit s2 e.2 = q :=
        matchLit_sound hs2 s2 (substExtends_refl s2)
      have hlit : e.2 ∈ e.1 := hwf e hmemidx
      obtain ⟨a, ha⟩ := List.length_eq_one.1 hlen1
      have hC : premise = [e.2] := by
        rw [heC] at hlit
        rw [ha] at hlit ⊢
        have : e.2 = a := by simpa using hlit
        rw [this]
      refine ⟨by omega, s2, ?_⟩
      rw [hC]
      simp only [List.map_cons, List.map_nil, happ]
      exact (List.singleton_sublist.2 hq).subperm
    | inr recs =>
      rw [hp1] at h
      replace h : (if recs.isEmpty = true
          then ((true, [], []) : Bool × List (List Lit) × List (List Lit))
          else slPhase2 idx cl recs (slCandidates recs)) = (false, ta, [C]) := h
      by_cases hempty : recs.isEmpty
      · rw [if_pos hempty] at h
        injection h with h1 _
        cases h1
      · rw [if_neg hempty] at h
        have hcb := slPhase2_false idx cl recs (slCandidates recs) ta [C] C h rfl
        obtain ⟨sf, picks, hext, hall, hnodup, hused⟩ :=
          canBeMatchedML_sound (slAlts idx cl C) C [] [] hcb
        have hmapeq := forall2_apply_eq sf (slAlts idx cl C) C picks hall
        have hpicksmem := forall2_picks_mem sf idx cl C C picks hall
        have hpnodup : picks.Nodup := hnodup.of_map
        have hsub : picks.Subperm cl.enum := hpnodup.subperm hpicksmem
        have hsnd : (picks.map Prod.snd).Subperm cl := by
          have := subperm_map Prod.snd hsub
          rwa [enum_map_snd_self] at this
        refine ⟨?_, sf, ?_⟩
        · have hlen2 := List.Forall₂.length_eq hall
          have := hsnd.length_le
          simp only [List.length_map] at this
          omega
        · rw [hmapeq]
          exact hsnd

/-- Witness for claim C5: the unit indexed clause P(x) forward-subsumes the
given clause P(c); the theorem applied to this concrete run yields the
length bound and the instantiation sub-multiset. -/
theorem forward_subsumption_sound_witness :
    ([Lit.mk true 1 [.var 0]] : List Lit).length ≤
      ([Lit.mk true 1 [.app 5 []]] : List Lit).length ∧
    ∃ sf : Subst,
      (([Lit.mk true 1 [.var 0]] : List Lit).map (applyLit sf)).Subperm
        [Lit.mk true 1 [.app 5 []]] :=
  forward_subsumption_sound
    [([Lit.mk true 1 [.var 0]], Lit.mk true 1 [.var 0])]
    [Lit.mk true 1 [.app 5 []]]
    [Lit.mk true 1 [.var 0]] [] (by unfold idxWF; decide) (by decide)

/-! ## Code-tree forward subsumption and subsumption resolution
(Inferences/CTFwSubsAndRes.cpp, CTFwSubsAndRes::perform)

Clause colors and their combination live in Kernel/ColorHelper.hpp, which
is not among the provided source files; they are modelled from the
specification (section 4.7). -/

inductive Color where
  | LEFT
  | RIGHT
  | TRANSPARENT
deriving DecidableEq

/-- Modelled from the spec: the color combination semilattice with
TRANSPARENT as unit; LEFT joined with RIGHT is INVALID, rendered as none. -/
def combineColors : Color → Color → Option Color
  | .TRANSPARENT, c => some c
  | c, .TRANSPARENT => some c
  | .LEFT, .LEFT => some .LEFT
  | .RIGHT, .RIGHT => some .RIGHT
  | .LEFT, .RIGHT => none
  | .RIGHT, .LEFT => none

/-- Modelled from the spec: ColorHelper::compatible (Kernel/ColorHelper.hpp
is not under src); two colors are compatible when their combination is not
INVALID. -/
def colorCompatible (a b : Color) : Bool := (combineColors a b).isSome

/-- A candidate produced by the code-tree query: the candidate premise
clause with its color, whether it is a subsumption-resolution candidate,
and in that case the resolved query literal index. -/
structure SResCand where
  clause : ClauseA
  color : Color
  resolved : Bool
  resolvedQueryLiteralIndex : Nat
deriving DecidableEq

/-- A simplification performed by CTFwSubsAndRes::perform: deletion of the
given clause with a subsuming premise, or replacement by the
subsumption-resolution clause. -/
inductive SimplStep where
  | deletion (premise : ClauseA) (premiseColor : Color)
  | replacement (premise : ClauseA) (premiseColor : Color) (res : ClauseA)
deriving DecidableEq

/-- The color of the premise of a performed simplification. -/
def SimplStep.premiseColor : SimplStep → Color
  | .deletion _ c => c
  | .replacement _ c _ => c

/-- Lines 88-113: the loop over the code-tree results; a premise already
seen (the aux mark) is skipped, a premise whose color is incompatible with
the given clause is skipped before any simplification, and the remaining
candidates are performed as subsumption resolution or subsumption. -/
def ctfGo (cl : ClauseA) (clColor : Color) :
    List ClauseA → List SResCand → List SimplStep
  | _, [] => []
  | seen, c :: cs =>
    if c.clause ∈ seen then ctfGo cl clColor seen cs
    else if !(colorCompatible clColor c.color) then
      ctfGo cl clColor (c.clause :: seen) cs
    else if c.resolved then
      .replacement c.clause c.color
          (buildSResClause cl c.resolvedQueryLiteralIndex c.clause) ::
        ctfGo cl clColor (c.clause :: seen) cs
    else
      .deletion c.clause c.color :: ctfGo cl clColor (c.clause :: seen) cs

/-- CTFwSubsAndRes::perform (lines 74-117): an empty given clause is left
alone (lines 78-80); otherwise the candidates are processed in order. -/
def ctfPerform (cl : ClauseA) (clColor : Color) (cands : List SResCand) :
    List SimplStep :=
  if cl.lits.length = 0 then [] else ctfGo cl clColor [] cands

theorem ctfGo_compatible (cl : ClauseA) (clColor : Color) :
    ∀ (cands : List SResCand) (seen : List ClauseA) (step : SimplStep),
    step ∈ ctfGo cl clColor seen cands →
    colorCompatible clColor step.premiseColor = true
  | [], seen, step => by
    intro h
    unfold ctfGo at h
    cases h
  | c :: cs, seen, step => by
    intro h
    unfold ctfGo at h
    by_cases h1 : c.clause ∈ seen
    · rw [if_pos h1] at h
      exact ctfGo_compatible cl clColor cs seen step h
    · rw [if_neg h1] at h
      by_cases h2 : colorCompatible clColor c.color = true
      · rw [if_neg (by simp [h2])] at h
        by_cases h3 : c.resolved = true
        · rw [if_pos h3] at h
          rcases List.mem_cons.1 h with rfl | h4
          · exact h2
          · exact ctfGo_compatible cl clColor cs (c.clause :: seen) step h4
        · rw [if_neg h3] at h
          rcases List.mem_cons.1 h with rfl | h4
          · exact h2
          · exact ctfGo_compatible cl clColor cs (c.clause :: seen) step h4
      · rw [if_pos (by simp [Bool.not_eq_true] at h2; simp [h2])] at h
        exact ctfGo_compatible cl clColor cs (c.clause :: seen) step h

/-- Claim C6: every candidate premise whose color is incompatible with the
color of the given clause is skipped before any simplification is
performed, so every performed code-tree subsumption or
subsumption-resolution step has a premise color compatible with the given
clause, its combination is not INVALID, and in particular no performed
step pairs a LEFT premise with a RIGHT given clause or a RIGHT premise
with a LEFT given clause. -/
theorem ctf_color_discipline (cl : ClauseA) (clColor : Color)
    (cands : List SResCand) (step : SimplStep)
    (h : step ∈ ctfPerform cl clColor cands) :
    colorCompatible clColor step.premiseColor = true ∧
    combineColors clColor step.premiseColor ≠ none ∧
    ¬ ((clColor = .LEFT ∧ step.premiseColor = .RIGHT) ∨
       (clColor = .RIGHT ∧ step.premiseColor = .LEFT)) := by
  unfold ctfPerform at h
  by_cases hlen : cl.lits.length = 0
  · rw [if_pos hlen] at h
    cases h
  · rw [if_neg hlen] at h
    have hcompat := ctfGo_compatible cl clColor cands [] step h
    refine ⟨hcompat, ?_, ?_⟩
    · intro hcon
      unfold colorCompatible at hcompat
      rw [hcon] at hcompat
      cases hcompat
    · rintro (⟨e1, e2⟩ | ⟨e1, e2⟩) <;> rw [e1, e2] at hcompat <;>
        simp [colorCompatible, combineColors] at hcompat

/-- Witness for claim C6: a concrete run with a LEFT given clause and a
TRANSPARENT premise; the performed deletion satisfies the color
discipline. -/
theorem ctf_color_discipline_witness :
    colorCompatible Color.LEFT
      (SimplStep.premiseColor
        (SimplStep.deletion (ClauseA.mk [Lit.mk true 2 []] 0 0) Color.TRANSPARENT)) = true ∧
    combineColors Color.LEFT
      (SimplStep.premiseColor
        (SimplStep.deletion (ClauseA.mk [Lit.mk true 2 []] 0 0) Color.TRANSPARENT)) ≠ none ∧
    ¬ ((Color.LEFT = Color.LEFT ∧
        SimplStep.premiseColor
          (SimplStep.deletion (ClauseA.mk [Lit.mk true 2 []] 0 0) Color.TRANSPARENT) = Color.RIGHT) ∨
       (Color.LEFT = Color.RIGHT ∧
        SimplStep.premiseColor
          (SimplStep.deletion (ClauseA.mk [Lit.mk true 2 []] 0 0) Color.TRANSPARENT) = Color.LEFT)) :=
  ctf_color_discipline
    (ClauseA.mk [Lit.mk true 3 [], Lit.mk false 4 []] 1 0) Color.LEFT
    [SResCand.mk (ClauseA.mk [Lit.mk true 2 []] 0 0) Color.TRANSPARENT false 0]
    (SimplStep.deletion (ClauseA.mk [Lit.mk true 2 []] 0 0) Color.TRANSPARENT)
    (by decide)
